import Mathlib

/-!
# Verification of the hero-section locator and alias merger

Shallow embedding of the text-editing core of `dota2_alias_modifier.py`
(`Dota2AliasModifier.extract_hero_section` and the per-hero body of
`Dota2AliasModifier.modify_aliases`).  Text is modelled as `List Char`;
Python string primitives (`str.find`, `str.split`, `str.strip`,
`str.replace`, and the three literal-ish regular expressions the code
uses) are given executable definitions with the same semantics on the
inputs the program handles.  Logging calls have no effect on the result
and are not modelled; a raised `ValueError` is modelled as `none`.
-/

set_option maxRecDepth 100000
set_option maxHeartbeats 2000000

namespace AliasMod

/-- Program text: a Python `str`, modelled as its list of characters. -/
abbrev Str := List Char

/-- Convenience: build a `Str` from a Lean string literal. -/
def chars (s : String) : Str := s.toList

/-- The opening-brace character. -/
def lbrace : Char := Char.ofNat 123

/-- The closing-brace character. -/
def rbrace : Char := Char.ofNat 125

/-- Python whitespace, the class used by `str.strip()`, `str.split()` and
the regex class `\s` (ASCII range). -/
def isPyWs (c : Char) : Bool :=
  c = ' ' || c = '\t' || c = '\n' || c = '\r' || c = '\x0b' || c = '\x0c'

/-- A regex `\w` word character (ASCII range). -/
def isWordChar (c : Char) : Bool :=
  ('a' ≤ c && c ≤ 'z') || ('A' ≤ c && c ≤ 'Z') || ('0' ≤ c && c ≤ '9') || c = '_'

/-- Python `s.strip()`: remove leading and trailing whitespace. -/
def pyStrip (s : Str) : Str :=
  ((s.dropWhile isPyWs).reverse.dropWhile isPyWs).reverse

/-- Python `s.lower()` (ASCII range, the range alias data uses). -/
def lowerStr (s : Str) : Str := s.map Char.toLower

/-- Python `s.split(sep)` for a one-character separator: split at every
occurrence, keeping empty pieces. -/
def splitOnChar (sep : Char) : Str → List Str
  | [] => [[]]
  | c :: rest =>
    if c = sep then [] :: splitOnChar sep rest
    else
      match splitOnChar sep rest with
      | [] => [[c]]
      | t :: ts => (c :: t) :: ts

/-- Split at every whitespace character, keeping empty pieces. -/
def splitOnWs : Str → List Str
  | [] => [[]]
  | c :: rest =>
    if isPyWs c then [] :: splitOnWs rest
    else
      match splitOnWs rest with
      | [] => [[c]]
      | t :: ts => (c :: t) :: ts

/-- Python `s.split()` with no argument: split on whitespace runs,
dropping empty pieces. -/
def pysplitWs (s : Str) : List Str :=
  (splitOnWs s).filter (fun t => !t.isEmpty)

/-- Python `";".join(ts)`: interpose a separator character. -/
def joinWith (sep : Char) : List Str → Str
  | [] => []
  | [t] => t
  | t :: t' :: ts => t ++ sep :: joinWith sep (t' :: ts)

/-- First index at or after the head where `pat` occurs as a contiguous
substring (Python `s.find(pat)` restricted to found/not-found). -/
def findSubstr (s pat : Str) : Option Nat :=
  match s with
  | [] => if pat.isEmpty then some 0 else none
  | _ :: cs =>
    if pat.isPrefixOf s then some 0
    else (findSubstr cs pat).map (· + 1)

/-- Python `s.find(pat, start)`: first occurrence at index `≥ start`. -/
def findSubstrFrom (s pat : Str) (start : Nat) : Option Nat :=
  (findSubstr (s.drop start) pat).map (· + start)

/-- Python `s.find(c, start)` for a single character. -/
def findCharFrom (s : Str) (c : Char) (start : Nat) : Option Nat :=
  findSubstrFrom s [c] start

/-- One step of Python `s.replace(old, new)` with explicit fuel
(replaces every non-overlapping occurrence, left to right). -/
def pyReplaceGo (old new : Str) : Nat → Str → Str
  | _, [] => []
  | 0, s => s
  | f + 1, s@(c :: cs) =>
    if old.isPrefixOf s && !old.isEmpty then
      new ++ pyReplaceGo old new f (s.drop old.length)
    else
      c :: pyReplaceGo old new f cs

/-- Python `s.replace(old, new)`. -/
def pyReplace (s old new : Str) : Str :=
  pyReplaceGo old new s.length s

/-! ## Section locator: `extract_hero_section` -/

/-- The quoted hero token the locator searches for:
`"npc_dota_hero_<name>"` (source line 1223). -/
def heroPattern (name : Str) : Str :=
  chars "\"npc_dota_hero_" ++ name ++ ['"']

/-- The brace-scanning loop of `extract_hero_section` (source lines
1271-1284): starting from nesting count 1 just after the opening brace,
adjust the count at every brace until it returns to 0 or the scan
budget (`fuel`, the distance to the cap) or the text runs out.  Returns
the final count and position. -/
def scanLoop : Nat → Str → Nat → Nat → Nat × Nat
  | 0, _, count, pos => (count, pos)
  | _ + 1, [], count, pos => (count, pos)
  | fuel + 1, c :: rest, count, pos =>
    if count = 0 then (count, pos)
    else
      scanLoop fuel rest
        (if c = lbrace then count + 1 else if c = rbrace then count - 1 else count)
        (pos + 1)

/-- End-of-section search from the opening brace (source lines
1260-1316): scan with cap `min 100000 (len - opening)`; if braces do
not balance, attempt recovery by finding `}}` within 1000 characters of
the stop position, else fail. -/
def scanEnd (content : Str) (opening : Nat) : Option Nat :=
  let stop := min (opening + 100000) content.length
  let r := scanLoop (stop - (opening + 1)) (content.drop (opening + 1)) 1 (opening + 1)
  if r.1 ≠ 0 then
    match findSubstrFrom content [rbrace, rbrace] r.2 with
    | some rp => if rp - r.2 < 1000 then some (rp + 2) else none
    | none => none
  else
    some r.2

/-- The validation applied to a candidate section (source lines
1319-1347): it must end (after stripping) with a closing brace, have
balanced braces, and be at least 50 characters long. -/
def sectionValid (sec : Str) : Bool :=
  ((pyStrip sec).getLast? == some rbrace)
    && (sec.count lbrace == sec.count rbrace)
    && decide (50 ≤ sec.length)

/-- `Dota2AliasModifier.extract_hero_section` (source lines 1208-1370):
find the quoted hero token anywhere in the content, find the next
opening brace, scan to the matching closing brace (with cap and `}}`
recovery), validate, and return the slice from the token to the end
position.  The 200-character-gap check and the expected-pattern check
only log and do not affect the result. -/
def extractHeroSection (content name : Str) : Option Str :=
  match findSubstr content (heroPattern name) with
  | none => none
  | some start =>
    match findCharFrom content lbrace start with
    | none => none
    | some opening =>
      match scanEnd content opening with
      | none => none
      | some endPos =>
        if sectionValid ((content.drop start).take (endPos - start)) then
          some ((content.drop start).take (endPos - start))
        else none

/-! ## Alias merger: the per-hero body of `modify_aliases` -/

/-- Splitting of an existing `NameAliases` value (source lines
1443-1455): split on `;` when one is present, else on whitespace when
the stripped value contains a space, else a single stripped token. -/
def parseExistingAliases (v : Str) : List Str :=
  if v.contains ';' then (splitOnChar ';' v).map pyStrip
  else if (pyStrip v).contains ' ' then (pysplitWs v).map pyStrip
  else [pyStrip v]

/-- The existing alias list with empty entries removed (source lines
1458-1460: `[a for a in existing_aliases if a.strip()]`). -/
def cleanParse (v : Str) : List Str :=
  (parseExistingAliases v).filter (fun a => !(pyStrip a).isEmpty)

/-- The normalization used for duplicate detection (source line 1464:
`alias.strip().lower()`). -/
def normalizeAlias (a : Str) : Str := lowerStr (pyStrip a)

/-- The case-insensitive membership test of the merge loop (source
lines 1466-1469). -/
def aliasMem (acc : List Str) (a : Str) : Bool :=
  acc.any (fun e => normalizeAlias e == normalizeAlias a)

/-- The merge loop (source lines 1462-1475, and, started from `[]`, the
self-deduplication loop of lines 1489-1501): for each new alias in
caller order, append the raw alias when no case-insensitive match
exists in the list built so far, else skip it. -/
def mergeLoop (acc : List Str) : List Str → List Str
  | [] => acc
  | a :: rest =>
    if aliasMem acc a then mergeLoop acc rest
    else mergeLoop (acc ++ [a]) rest

/-- Serialization of an alias list (source line 1478 / 1503:
`";".join(a for a in l if a.strip())`). -/
def joinAliases (l : List Str) : Str :=
  joinWith ';' (l.filter (fun a => !(pyStrip a).isEmpty))

/-- Match of the regex `"NameAliases"\s+"([^"]*)"` anchored at the head
of `s`: on success, the match length and the captured group. -/
def matchNA (s : Str) : Option (Nat × Str) :=
  if (chars "\"NameAliases\"").isPrefixOf s then
    let t := s.drop 13
    let w := t.takeWhile isPyWs
    if w.length = 0 then none
    else
      match t.drop w.length with
      | '"' :: u =>
        let g := u.takeWhile (fun c => c ≠ '"')
        if g.length < u.length then
          some (13 + w.length + 1 + g.length + 1, g)
        else none
      | _ => none
  else none

/-- `re.search(r'"NameAliases"\s+"([^"]*)"', s)` (source line 1410):
the captured group of the leftmost match. -/
def findNAGo : Nat → Str → Option Str
  | _, [] => none
  | 0, _ => none
  | f + 1, s@(_ :: cs) =>
    match matchNA s with
    | some (_, g) => some g
    | none => findNAGo f cs

/-- The leftmost `NameAliases` declaration value in a section. -/
def findNameAliases (s : Str) : Option Str := findNAGo s.length s

/-- `re.sub(r'"NameAliases"\s+"([^"]*)"', '"NameAliases" "<v>"', s)`
(source lines 1481-1485): replace every non-overlapping match, left to
right, with the fixed replacement text built from `v`.  Replacement
escape processing is not modelled (alias data is backslash-free). -/
def subNAGo (v : Str) : Nat → Str → Str
  | _, [] => []
  | 0, s => s
  | f + 1, s@(c :: cs) =>
    match matchNA s with
    | some (n, _) => (chars "\"NameAliases\" \"" ++ v ++ ['"']) ++ subNAGo v f (s.drop n)
    | none => c :: subNAGo v f cs

/-- Replace every `NameAliases` declaration with value `v`. -/
def subNA (s v : Str) : Str := subNAGo v s.length s

/-- Match of `"npc_dota_hero_[^"]*"` anchored at the head of `s`:
the match length on success. -/
def heroTokenAt (s : Str) : Option Nat :=
  if (chars "\"npc_dota_hero_").isPrefixOf s then
    let t := s.drop 15
    let g := t.takeWhile (fun c => c ≠ '"')
    if g.length < t.length then some (15 + g.length + 1) else none
  else none

/-- `re.sub(r'((?:"npc_dota_hero_[^"]*"[\s\S]*?))(}})', ..., s)`
(source lines 1506-1510): at the leftmost position where the hero
token matches and a later adjacent `}}` exists, keep the text up to
that `}}` (lazy star: the earliest one), splice in `ins`, keep `}}`,
and continue after it; positions where the pattern cannot complete are
stepped over one character at a time, as the regex engine does. -/
def insertGo (ins : Str) : Nat → Str → Str
  | _, [] => []
  | 0, s => s
  | f + 1, s@(c :: cs) =>
    match heroTokenAt s with
    | some k =>
      match findSubstr (s.drop k) [rbrace, rbrace] with
      | some d =>
        s.take (k + d) ++ ins ++ rbrace :: rbrace :: insertGo ins f (s.drop (k + d + 2))
      | none => c :: insertGo ins f cs
    | none => c :: insertGo ins f cs

/-- The inserted declaration text of source line 1508:
a tab, the new declaration line built from `valStr`, a newline and a
tab, placed immediately before the matched `}}`. -/
def insertSub (s valStr : Str) : Str :=
  insertGo (chars "\t\"NameAliases\" \"" ++ valStr ++ chars "\"\n\t") s.length s

/-- Match of `"npc_dota_hero_\w+"` anchored at the head of `s`. -/
def heroDefAt (s : Str) : Bool :=
  if (chars "\"npc_dota_hero_").isPrefixOf s then
    let t := s.drop 15
    let w := t.takeWhile isWordChar
    match w, t.drop w.length with
    | _ :: _, '"' :: _ => true
    | _, _ => false
  else false

/-- `re.search(r'"npc_dota_hero_\w+"', s)` as a Boolean (source line
1413). -/
def hasHeroNameDefGo : Nat → Str → Bool
  | _, [] => false
  | 0, _ => false
  | f + 1, s@(_ :: cs) => heroDefAt s || hasHeroNameDefGo f cs

/-- Whether a section contains a well-formed quoted hero token. -/
def hasHeroNameDef (s : Str) : Bool := hasHeroNameDefGo s.length s

/-- The rewrite of a located section (source lines 1442-1510): when a
`NameAliases` declaration exists, merge into the first one's value and
substitute; otherwise deduplicate the new aliases against themselves
and insert a fresh declaration before the first adjacent `}}`. -/
def sectionRewrite (sec : Str) (aliases : List Str) : Str :=
  match findNameAliases sec with
  | some v => subNA sec (joinAliases (mergeLoop (cleanParse v) aliases))
  | none => insertSub sec (joinAliases (mergeLoop [] aliases))

/-- One iteration of the per-hero loop of `modify_aliases` (source
lines 1392-1553) on the in-memory content: locate the section (a
failure skips the hero, leaving the content unchanged), run the two
structural `ValueError` checks (modelled as `none`), rewrite the
section, and splice the rewritten section back at the exact located
position, with the source's verification step and its `str.replace`
fall-backs. -/
def processHero (content name : Str) (aliases : List Str) : Option Str :=
  match extractHeroSection content name with
  | none => some content
  | some sec =>
    if hasHeroNameDef sec then
      if sec.count lbrace ≠ sec.count rbrace then none
      else
        if sec = sectionRewrite sec aliases then some content
        else
          match findSubstr content (heroPattern name) with
          | some start =>
            if extractHeroSection content name = some sec then
              some (content.take start ++ sectionRewrite sec aliases
                ++ content.drop (start + sec.length))
            else some (pyReplace content sec (sectionRewrite sec aliases))
          | none => some (pyReplace content sec (sectionRewrite sec aliases))
    else none

/-- The value-level composition of the merge on an existing declaration
value: parse, filter empties, merge the new aliases, serialize (source
lines 1443-1478). -/
def valueMerge (v : Str) (new : List Str) : Str :=
  joinAliases (mergeLoop (cleanParse v) new)

/-- The spec's §4.1 anchoring requirement, used to state claims about
it: some line of the content, after leading whitespace, begins with the
quoted token. -/
def tokenLineAnchored (content pat : Str) : Bool :=
  (splitOnChar '\n' content).any (fun l => pat.isPrefixOf (l.dropWhile isPyWs))

/-! ## Concrete documents used as test inputs and expected outputs -/

/-- A hero block with an existing `NameAliases` declaration `Alpha;Beta`. -/
def docY : Str := chars "\"npc_dota_hero_axe\"\n\x7b\n\t\"BaseClass\" \"npc_dota_units_base\"\n\t\"NameAliases\" \"Alpha;Beta\"\n\x7d\n"

/-- The section the locator extracts from `docY`. -/
def docYsec : Str := chars "\"npc_dota_hero_axe\"\n\x7b\n\t\"BaseClass\" \"npc_dota_units_base\"\n\t\"NameAliases\" \"Alpha;Beta\"\n\x7d"

/-- `docY` after merging `[beta, Gamma]`. -/
def expY : Str := chars "\"npc_dota_hero_axe\"\n\x7b\n\t\"BaseClass\" \"npc_dota_units_base\"\n\t\"NameAliases\" \"Alpha;Beta;Gamma\"\n\x7d\n"

/-- A document whose hero token occurs only in the middle of a comment
line, never at the start of a line's significant content. -/
def doc3 : Str := chars "\t// note \"npc_dota_hero_axe\" here\n\x7b\n\t\"BaseClass\" \"npc_dota_units_base\"\n\x7d\n"

/-- The section the locator nevertheless extracts from `doc3`. -/
def doc3sec : Str := chars "\"npc_dota_hero_axe\" here\n\x7b\n\t\"BaseClass\" \"npc_dota_units_base\"\n\x7d"

/-- A hero block with no `NameAliases` declaration and no adjacent `}}`
pair (normal one-brace-per-line formatting). -/
def docX : Str := chars "\"npc_dota_hero_axe\"\n\x7b\n\t\"BaseClass\" \"npc_dota_units_base\"\n\t\"AttackRate\" \"1.7\"\n\x7d\n"

/-- The section the locator extracts from `docX`. -/
def docXsec : Str := chars "\"npc_dota_hero_axe\"\n\x7b\n\t\"BaseClass\" \"npc_dota_units_base\"\n\t\"AttackRate\" \"1.7\"\n\x7d"

/-- A hero block with no `NameAliases` declaration whose nested block
makes the two closing braces adjacent. -/
def docX2 : Str := chars "\"npc_dota_hero_axe\"\n\x7b\n\t\"BaseClass\" \"npc_dota_units_base\"\n\t\"Nested\"\n\t\x7b\n\t\"A\" \"1\"\n\t\x7d\x7d\n"

/-- `docX2` after merging `[Fast, fast, Quick]`: a new declaration line
is spliced in immediately before the adjacent `}}`. -/
def expX2 : Str := chars "\"npc_dota_hero_axe\"\n\x7b\n\t\"BaseClass\" \"npc_dota_units_base\"\n\t\"Nested\"\n\t\x7b\n\t\"A\" \"1\"\n\t\t\"NameAliases\" \"Fast;Quick\"\n\t\x7d\x7d\n"

/-- A hero block containing two `NameAliases` declarations. -/
def doc6 : Str := chars "\"npc_dota_hero_axe\"\n\x7b\n\t\"BaseClass\" \"npc_dota_units_base\"\n\t\"NameAliases\" \"One\"\n\t\"NameAliases\" \"Two\"\n\x7d\n"

/-- The section the locator extracts from `doc6`. -/
def doc6sec : Str := chars "\"npc_dota_hero_axe\"\n\x7b\n\t\"BaseClass\" \"npc_dota_units_base\"\n\t\"NameAliases\" \"One\"\n\t\"NameAliases\" \"Two\"\n\x7d"

/-- `doc6` after merging `[Three]`: both declaration lines now carry
the value merged from the first one. -/
def exp6 : Str := chars "\"npc_dota_hero_axe\"\n\x7b\n\t\"BaseClass\" \"npc_dota_units_base\"\n\t\"NameAliases\" \"One;Three\"\n\t\"NameAliases\" \"One;Three\"\n\x7d\n"

/-- A hero block whose declaration value uses space separators. -/
def doc7 : Str := chars "\"npc_dota_hero_axe\"\n\x7b\n\t\"BaseClass\" \"npc_dota_units_base\"\n\t\"NameAliases\" \"Alpha Beta\"\n\x7d\n"

/-- `doc7` after merging `[alpha]` (already present): the declaration
line is still rewritten into semicolon-normalized form. -/
def exp7 : Str := chars "\"npc_dota_hero_axe\"\n\x7b\n\t\"BaseClass\" \"npc_dota_units_base\"\n\t\"NameAliases\" \"Alpha;Beta\"\n\x7d\n"

/-- A hero block with a `NameAliases` value `Alpha`. -/
def doc8 : Str := chars "\"npc_dota_hero_axe\"\n\x7b\n\t\"BaseClass\" \"npc_dota_units_base\"\n\t\"NameAliases\" \"Alpha\"\n\x7d\n"

/-- A truncated document: the hero block's brace is never closed. -/
def docU : Str := chars "\"npc_dota_hero_axe\"\n\x7b\n\t\"BaseClass\" \"npc_dota_units_base\"\n"

/-- A hero block with no `NameAliases` declaration whose section
contains a second hero token (a reference to another hero) and two
adjacent closing-brace pairs, one after each token. -/
def docD : Str := chars "\"npc_dota_hero_axe\"\n\x7b\n\t\"BaseClass\" \"npc_dota_units_base\"\n\t\"A\"\n\t\x7b\n\t\"B\"\n\t\x7b\n\t\"x\" \"1\"\n\t\x7d\x7d\n\t\"Friend\" \"npc_dota_hero_bane\"\n\t\"C\"\n\t\x7b\n\t\"y\" \"2\"\n\t\x7d\x7d\n"

/-- `docD` after merging `[Fast]`: the insertion substitution matches
twice — once per hero token with a later adjacent `}}` — so one merge
inserts two declaration lines. -/
def expD : Str := chars "\"npc_dota_hero_axe\"\n\x7b\n\t\"BaseClass\" \"npc_dota_units_base\"\n\t\"A\"\n\t\x7b\n\t\"B\"\n\t\x7b\n\t\"x\" \"1\"\n\t\t\"NameAliases\" \"Fast\"\n\t\x7d\x7d\n\t\"Friend\" \"npc_dota_hero_bane\"\n\t\"C\"\n\t\x7b\n\t\"y\" \"2\"\n\t\t\"NameAliases\" \"Fast\"\n\t\x7d\x7d\n"

/-! ## Basic lemmas about the string primitives -/

theorem isPrefixOf_exists {p l : Str} :
    p.isPrefixOf l = true ↔ ∃ t, l = p ++ t := by
  induction p generalizing l with
  | nil => simp [List.isPrefixOf]
  | cons a as ih =>
    cases l with
    | nil => simp [List.isPrefixOf]
    | cons b bs =>
      simp only [List.isPrefixOf, Bool.and_eq_true, beq_iff_eq, ih, List.cons_append]
      constructor
      · rintro ⟨rfl, t, rfl⟩
        exact ⟨t, rfl⟩
      · rintro ⟨t, ht⟩
        injection ht with hb hbs
        exact ⟨hb.symm, t, hbs⟩

theorem findSubstr_some {s pat : Str} {i : Nat} (h : findSubstr s pat = some i) :
    pat.isPrefixOf (s.drop i) = true ∧ i + pat.length ≤ s.length := by
  induction s generalizing i with
  | nil =>
    unfold findSubstr at h
    by_cases hp : pat.isEmpty
    · rw [if_pos hp] at h
      obtain rfl : (0 : Nat) = i := Option.some.inj h
      rw [List.isEmpty_iff] at hp
      subst hp
      simp [List.isPrefixOf]
    · rw [if_neg hp] at h
      exact Option.noConfusion h
  | cons c cs ih =>
    unfold findSubstr at h
    by_cases hp : pat.isPrefixOf (c :: cs) = true
    · rw [if_pos hp] at h
      obtain rfl : (0 : Nat) = i := Option.some.inj h
      refine ⟨hp, ?_⟩
      obtain ⟨t, ht⟩ := isPrefixOf_exists.mp hp
      have hlen := congrArg List.length ht
      simp only [List.length_cons, List.length_append] at hlen
      simp only [List.length_cons]
      omega
    · rw [if_neg hp] at h
      cases hj : findSubstr cs pat with
      | none => rw [hj] at h; exact Option.noConfusion h
      | some j =>
        rw [hj] at h
        simp only [Option.map_some'] at h
        obtain rfl : j + 1 = i := Option.some.inj h
        obtain ⟨hpre, hle⟩ := ih hj
        refine ⟨?_, by simp only [List.length_cons]; omega⟩
        simpa using hpre

theorem findSubstrFrom_some {s pat : Str} {start rp : Nat} (hpat : pat ≠ [])
    (h : findSubstrFrom s pat start = some rp) :
    start ≤ rp ∧ pat.isPrefixOf (s.drop rp) = true ∧ rp + pat.length ≤ s.length := by
  unfold findSubstrFrom at h
  cases hj : findSubstr (s.drop start) pat with
  | none => rw [hj] at h; exact Option.noConfusion h
  | some j =>
    rw [hj] at h
    simp only [Option.map_some'] at h
    obtain rfl : j + start = rp := Option.some.inj h
    obtain ⟨hpre, hle⟩ := findSubstr_some hj
    have hlen : 1 ≤ pat.length := by
      cases pat with
      | nil => exact absurd rfl hpat
      | cons a as => simp
    have hd : (s.drop start).length = s.length - start := List.length_drop _ _
    refine ⟨Nat.le_add_left _ _, ?_, by omega⟩
    rw [List.drop_drop] at hpre
    simpa [Nat.add_comm] using hpre

theorem findCharFrom_some {s : Str} {c : Char} {start j : Nat}
    (h : findCharFrom s c start = some j) :
    start ≤ j ∧ j + 1 ≤ s.length := by
  have := findSubstrFrom_some (by simp) h
  exact ⟨this.1, by simpa using this.2.2⟩

theorem scanLoop_pos_le (fuel : Nat) : ∀ (s : Str) (count pos : Nat),
    (scanLoop fuel s count pos).2 ≤ pos + fuel := by
  induction fuel with
  | zero => intro s count pos; simp [scanLoop]
  | succ f ih =>
    intro s count pos
    cases s with
    | nil => simp [scanLoop]
    | cons c rest =>
      by_cases h0 : count = 0
      · simp [scanLoop, h0]
      · simp only [scanLoop, if_neg h0]
        have := ih rest (if c = lbrace then count + 1
          else if c = rbrace then count - 1 else count) (pos + 1)
        omega

theorem scanLoop_pos_ge (fuel : Nat) : ∀ (s : Str) (count pos : Nat),
    pos ≤ (scanLoop fuel s count pos).2 := by
  induction fuel with
  | zero => intro s count pos; simp [scanLoop]
  | succ f ih =>
    intro s count pos
    cases s with
    | nil => simp [scanLoop]
    | cons c rest =>
      by_cases h0 : count = 0
      · simp [scanLoop, h0]
      · simp only [scanLoop, if_neg h0]
        have := ih rest (if c = lbrace then count + 1
          else if c = rbrace then count - 1 else count) (pos + 1)
        omega

theorem scanLoop_pos_le_len (fuel : Nat) : ∀ (s : Str) (count pos : Nat),
    (scanLoop fuel s count pos).2 ≤ pos + s.length := by
  induction fuel with
  | zero => intro s count pos; simp [scanLoop]
  | succ f ih =>
    intro s count pos
    cases s with
    | nil => simp [scanLoop]
    | cons c rest =>
      by_cases h0 : count = 0
      · simp [scanLoop, h0]
      · simp only [scanLoop, if_neg h0]
        have := ih rest (if c = lbrace then count + 1
          else if c = rbrace then count - 1 else count) (pos + 1)
        simp only [List.length_cons]
        omega

theorem scanEnd_some_bounds {content : Str} {opening e : Nat}
    (hop : opening + 1 ≤ content.length)
    (h : scanEnd content opening = some e) :
    opening + 1 ≤ e ∧ e ≤ content.length := by
  unfold scanEnd at h
  simp only at h
  set r := scanLoop (min (opening + 100000) content.length - (opening + 1))
    (content.drop (opening + 1)) 1 (opening + 1) with hr
  have hge : opening + 1 ≤ r.2 := scanLoop_pos_ge _ _ _ _
  have hle : r.2 ≤ (opening + 1) + (content.drop (opening + 1)).length :=
    scanLoop_pos_le_len _ _ _ _
  rw [List.length_drop] at hle
  split at h
  · split at h
    next rp hrp =>
      split at h
      · obtain rfl : rp + 2 = e := Option.some.inj h
        have := findSubstrFrom_some (by simp) hrp
        simp at this
        omega
      · exact Option.noConfusion h
    next => exact Option.noConfusion h
  · obtain rfl : r.2 = e := Option.some.inj h
    omega

theorem extract_inv {content name sec : Str}
    (h : extractHeroSection content name = some sec) :
    ∃ start opening endPos,
      findSubstr content (heroPattern name) = some start ∧
      findCharFrom content lbrace start = some opening ∧
      scanEnd content opening = some endPos ∧
      sec = (content.drop start).take (endPos - start) ∧
      sectionValid sec = true := by
  unfold extractHeroSection at h
  split at h
  · exact Option.noConfusion h
  next start h1 =>
    split at h
    · exact Option.noConfusion h
    next opening h2 =>
      split at h
      · exact Option.noConfusion h
      next endPos h3 =>
        split at h
        next hv =>
          obtain rfl := (Option.some.inj h).symm
          exact ⟨start, opening, endPos, h1, h2, h3, rfl, hv⟩
        next => exact Option.noConfusion h

theorem sectionValid_parts {sec : Str} (hv : sectionValid sec = true) :
    (pyStrip sec).getLast? = some rbrace ∧ sec.count lbrace = sec.count rbrace ∧
      50 ≤ sec.length := by
  unfold sectionValid at hv
  simp only [Bool.and_eq_true, beq_iff_eq, decide_eq_true_eq] at hv
  exact ⟨hv.1.1, hv.1.2, hv.2⟩

theorem extract_slice {content name sec : Str}
    (h : extractHeroSection content name = some sec) :
    ∃ start, findSubstr content (heroPattern name) = some start ∧
      start + sec.length ≤ content.length ∧
      content = content.take start ++ sec ++ content.drop (start + sec.length) := by
  obtain ⟨start, opening, endPos, h1, h2, h3, hsec, hv⟩ := extract_inv h
  obtain ⟨hso, hol⟩ := findCharFrom_some h2
  obtain ⟨hoe, hel⟩ := scanEnd_some_bounds hol h3
  have hlen : sec.length = endPos - start := by
    rw [hsec, List.length_take, List.length_drop]
    omega
  refine ⟨start, h1, by omega, ?_⟩
  have key : content.take start ++ sec ++ content.drop (start + sec.length) = content := by
    rw [hsec]
    have hidx : start + ((content.drop start).take (endPos - start)).length = endPos := by
      rw [List.length_take, List.length_drop]
      omega
    rw [hidx]
    have hdd : content.drop endPos = (content.drop start).drop (endPos - start) := by
      rw [List.drop_drop]
      congr 1
      omega
    rw [hdd, List.append_assoc, List.take_append_drop, List.take_append_drop]
  exact key.symm

/-! ## Lemmas about the merge loop -/

theorem aliasMem_append_left {acc : List Str} {x : Str} (l : List Str)
    (h : aliasMem acc x = true) : aliasMem (acc ++ l) x = true := by
  unfold aliasMem at h ⊢
  rw [List.any_append, h, Bool.true_or]

theorem aliasMem_self (acc : List Str) (a : Str) : aliasMem (acc ++ [a]) a = true := by
  unfold aliasMem
  rw [List.any_append]
  simp

theorem mergeLoop_exists_append (new : List Str) : ∀ acc : List Str,
    ∃ kept, mergeLoop acc new = acc ++ kept ∧ List.Sublist kept new := by
  induction new with
  | nil =>
    intro acc
    exact ⟨[], by simp [mergeLoop], List.nil_sublist _⟩
  | cons a rest ih =>
    intro acc
    unfold mergeLoop
    by_cases h : aliasMem acc a
    · rw [if_pos h]
      obtain ⟨kept, hk, hs⟩ := ih acc
      exact ⟨kept, hk, hs.cons a⟩
    · rw [if_neg h]
      obtain ⟨kept, hk, hs⟩ := ih (acc ++ [a])
      exact ⟨a :: kept, by rw [hk, List.append_assoc]; rfl, hs.cons₂ a⟩

theorem mergeLoop_mem (new : List Str) : ∀ (acc : List Str) (a : Str), a ∈ new →
    aliasMem (mergeLoop acc new) a = true := by
  induction new with
  | nil => intro acc a h; exact absurd h (List.not_mem_nil a)
  | cons b rest ih =>
    intro acc a h
    unfold mergeLoop
    by_cases hb : aliasMem acc b
    · rw [if_pos hb]
      rcases List.mem_cons.mp h with rfl | h2
      · obtain ⟨kept, hk, _⟩ := mergeLoop_exists_append rest acc
        rw [hk]
        exact aliasMem_append_left _ hb
      · exact ih acc a h2
    · rw [if_neg hb]
      rcases List.mem_cons.mp h with rfl | h2
      · obtain ⟨kept, hk, _⟩ := mergeLoop_exists_append rest (acc ++ [a])
        rw [hk]
        exact aliasMem_append_left _ (aliasMem_self acc a)
      · exact ih _ a h2

theorem mergeLoop_all_present (new : List Str) : ∀ acc : List Str,
    (∀ a ∈ new, aliasMem acc a = true) → mergeLoop acc new = acc := by
  induction new with
  | nil => intro acc _; rfl
  | cons a rest ih =>
    intro acc h
    unfold mergeLoop
    rw [if_pos (h a (List.mem_cons_self a rest))]
    exact ih acc (fun b hb => h b (List.mem_cons_of_mem a hb))

theorem mergeLoop_pairwise (new : List Str) : ∀ acc : List Str,
    List.Pairwise (fun a b => normalizeAlias a ≠ normalizeAlias b) acc →
    List.Pairwise (fun a b => normalizeAlias a ≠ normalizeAlias b) (mergeLoop acc new) := by
  induction new with
  | nil => intro acc h; exact h
  | cons a rest ih =>
    intro acc h
    unfold mergeLoop
    by_cases ha : aliasMem acc a
    · rw [if_pos ha]
      exact ih acc h
    · rw [if_neg ha]
      apply ih
      rw [List.pairwise_append]
      refine ⟨h, List.pairwise_singleton _ _, ?_⟩
      intro x hx y hy
      rw [List.mem_singleton] at hy
      subst hy
      intro heq
      apply ha
      unfold aliasMem
      rw [List.any_eq_true]
      exact ⟨x, hx, by rw [heq]; exact beq_self_eq_true _⟩

/-! ## Lemmas about splitting, stripping and joining -/

theorem contains_iff_mem {l : Str} {c : Char} : l.contains c = true ↔ c ∈ l := by
  induction l with
  | nil => simp
  | cons a as ih =>
    simp [List.contains_cons, Bool.or_eq_true, beq_iff_eq, ih, List.mem_cons]

theorem contains_eq_false {l : Str} {c : Char} (h : c ∉ l) : l.contains c = false := by
  by_cases hb : l.contains c = true
  · exact absurd (contains_iff_mem.mp hb) h
  · exact Bool.eq_false_iff.mpr hb

theorem dropWhile_eq_self_of_all {u : Str} {p : Char → Bool}
    (h : ∀ c ∈ u, p c = false) : u.dropWhile p = u := by
  cases u with
  | nil => rfl
  | cons c cs => simp [List.dropWhile_cons, h c (List.mem_cons_self c cs)]

theorem pyStrip_no_ws {t : Str} (h : ∀ c ∈ t, isPyWs c = false) : pyStrip t = t := by
  unfold pyStrip
  rw [dropWhile_eq_self_of_all h,
    dropWhile_eq_self_of_all (fun c hc => h c (List.mem_reverse.mp hc)),
    List.reverse_reverse]

theorem joinWith_cons2 (sep : Char) (t t' : Str) (ts : List Str) :
    joinWith sep (t :: t' :: ts) = t ++ sep :: joinWith sep (t' :: ts) := rfl

theorem splitOnChar_cons (sep c : Char) (rest : Str) :
    splitOnChar sep (c :: rest) =
      if c = sep then [] :: splitOnChar sep rest
      else
        match splitOnChar sep rest with
        | [] => [[c]]
        | t :: ts => (c :: t) :: ts := rfl

theorem splitOnChar_no_sep {sep : Char} : ∀ {t : Str}, (∀ a ∈ t, ¬ a = sep) →
    splitOnChar sep t = [t] := by
  intro t
  induction t with
  | nil => intro _; rfl
  | cons c cs ih =>
    intro h
    rw [splitOnChar_cons, if_neg (h c (List.mem_cons_self c cs)),
      ih (fun a ha => h a (List.mem_cons_of_mem c ha))]

theorem splitOnChar_append_sep {sep : Char} : ∀ {t rest : Str}, (∀ a ∈ t, ¬ a = sep) →
    splitOnChar sep (t ++ sep :: rest) = t :: splitOnChar sep rest := by
  intro t rest
  induction t with
  | nil =>
    intro _
    simp only [List.nil_append]
    rw [splitOnChar_cons, if_pos rfl]
  | cons c cs ih =>
    intro h
    simp only [List.cons_append]
    rw [splitOnChar_cons, if_neg (h c (List.mem_cons_self _ _)),
      ih (fun a ha => h a (List.mem_cons_of_mem c ha))]

theorem joinWith_contains_sep (sep : Char) (t t' : Str) (ts : List Str) :
    (joinWith sep (t :: t' :: ts)).contains sep = true := by
  rw [joinWith_cons2]
  exact contains_iff_mem.mpr (List.mem_append.mpr (Or.inr (List.mem_cons_self _ _)))

theorem splitOnChar_joinWith {ts : List Str} (hne : ts ≠ [])
    (h : ∀ t ∈ ts, ∀ a ∈ t, ¬ a = ';') :
    splitOnChar ';' (joinWith ';' ts) = ts := by
  induction ts with
  | nil => exact absurd rfl hne
  | cons t ts0 ih =>
    cases ts0 with
    | nil => exact splitOnChar_no_sep (h t (List.mem_cons_self _ _))
    | cons t' ts' =>
      rw [joinWith_cons2,
        splitOnChar_append_sep (h t (List.mem_cons_self _ _)),
        ih (by simp) (fun u hu => h u (List.mem_cons_of_mem _ hu))]

theorem filter_nonempty_eq_self {l : List Str}
    (h : ∀ t ∈ l, t ≠ [] ∧ ∀ c ∈ t, isPyWs c = false) :
    l.filter (fun a => !(pyStrip a).isEmpty) = l := by
  induction l with
  | nil => rfl
  | cons t ts ih =>
    rw [List.filter_cons]
    have ht := h t (List.mem_cons_self _ _)
    have hps : pyStrip t = t := pyStrip_no_ws ht.2
    have : (!(pyStrip t).isEmpty) = true := by
      rw [hps]
      cases t with
      | nil => exact absurd rfl ht.1
      | cons c cs => rfl
    rw [if_pos this, ih (fun u hu => h u (List.mem_cons_of_mem _ hu))]

theorem joinAliases_eq {l : List Str}
    (h : ∀ t ∈ l, t ≠ [] ∧ ∀ c ∈ t, isPyWs c = false) :
    joinAliases l = joinWith ';' l := by
  unfold joinAliases
  rw [filter_nonempty_eq_self h]

theorem map_pyStrip_id {l : List Str} (h : ∀ u ∈ l, pyStrip u = u) : l.map pyStrip = l := by
  induction l with
  | nil => rfl
  | cons u us ih =>
    rw [List.map_cons, h u (List.mem_cons_self _ _),
      ih (fun x hx => h x (List.mem_cons_of_mem _ hx))]

theorem cleanParse_joinWith {ts : List Str} (hne : ts ≠ [])
    (h : ∀ t ∈ ts, t ≠ [] ∧ ∀ c ∈ t, isPyWs c = false ∧ ¬ c = ';') :
    cleanParse (joinWith ';' ts) = ts := by
  cases ts with
  | nil => exact absurd rfl hne
  | cons t ts0 =>
    cases ts0 with
    | nil =>
      have ht := h t (List.mem_cons_self _ _)
      have hsem : t.contains ';' = false :=
        contains_eq_false (fun hc => (ht.2 ';' hc).2 rfl)
      have hws : ∀ c ∈ t, isPyWs c = false := fun c hc => (ht.2 c hc).1
      have hps : pyStrip t = t := pyStrip_no_ws hws
      have hsp : (pyStrip t).contains ' ' = false := by
        rw [hps]
        exact contains_eq_false (fun hc => by simpa [isPyWs] using hws ' ' hc)
      show cleanParse t = [t]
      unfold cleanParse parseExistingAliases
      rw [if_neg (by rw [hsem]; exact Bool.false_ne_true),
        if_neg (by rw [hsp]; exact Bool.false_ne_true), hps]
      exact filter_nonempty_eq_self (fun u hu => by
        rw [List.mem_singleton] at hu
        subst hu
        exact ⟨ht.1, hws⟩)
    | cons t' ts' =>
      have hsem := joinWith_contains_sep ';' t t' ts'
      unfold cleanParse parseExistingAliases
      rw [if_pos hsem,
        splitOnChar_joinWith (by simp) (fun u hu a ha => (((h u hu).2) a ha).2),
        map_pyStrip_id (fun u hu => pyStrip_no_ws (fun c hc => ((h u hu).2 c hc).1))]
      exact filter_nonempty_eq_self (fun u hu =>
        ⟨(h u hu).1, fun c hc => ((h u hu).2 c hc).1⟩)

/-! ## The located section begins with the hero token and passes the
structural checks of `modify_aliases` -/

theorem extract_valid {content name sec : Str}
    (h : extractHeroSection content name = some sec) : sectionValid sec = true := by
  obtain ⟨_, _, _, _, _, _, _, hv⟩ := extract_inv h
  exact hv

theorem isPrefixOf_take {p l : Str} {n : Nat} (h : p.isPrefixOf l = true)
    (hn : p.length ≤ n) : p.isPrefixOf (l.take n) = true := by
  obtain ⟨t, rfl⟩ := isPrefixOf_exists.mp h
  rw [isPrefixOf_exists]
  refine ⟨t.take (n - p.length), ?_⟩
  rw [List.take_append_eq_append_take, List.take_of_length_le hn]

theorem heroPattern_length (name : Str) :
    (heroPattern name).length = name.length + 16 := by
  have h15 : (chars "\"npc_dota_hero_").length = 15 := rfl
  unfold heroPattern
  rw [List.length_append, List.length_append, h15]
  simp
  omega

theorem extract_isPrefix {content name sec : Str} (hnl : name.length ≤ 34)
    (h : extractHeroSection content name = some sec) :
    (heroPattern name).isPrefixOf sec = true := by
  obtain ⟨start, opening, endPos, h1, h2, h3, hsec, hv⟩ := extract_inv h
  have hpre := (findSubstr_some h1).1
  have h50 := (sectionValid_parts hv).2.2
  have hsl : sec.length ≤ endPos - start := by
    rw [hsec, List.length_take]
    exact Nat.min_le_left _ _
  have hplen := heroPattern_length name
  rw [hsec]
  rw [hsec, List.length_take] at h50
  exact isPrefixOf_take hpre (by omega)

theorem takeWhile_all_stop {p : Char → Bool} {c : Char} {r : Str} : ∀ {l : Str},
    (∀ a ∈ l, p a = true) → p c = false → (l ++ c :: r).takeWhile p = l := by
  intro l
  induction l with
  | nil => intro _ hc; simp [List.takeWhile_cons, hc]
  | cons a as ih =>
    intro hl hc
    rw [List.cons_append]
    simp [List.takeWhile_cons, hl a (List.mem_cons_self _ _),
      ih (fun x hx => hl x (List.mem_cons_of_mem _ hx)) hc]

theorem heroDefAt_of {name t0 : Str} (hne : name ≠ [])
    (hw : ∀ c ∈ name, isWordChar c = true) :
    heroDefAt (chars "\"npc_dota_hero_" ++ (name ++ '"' :: t0)) = true := by
  unfold heroDefAt
  rw [if_pos (isPrefixOf_exists.mpr ⟨name ++ '"' :: t0, rfl⟩)]
  have hdl : (chars "\"npc_dota_hero_" ++ (name ++ '"' :: t0)).drop 15
      = name ++ '"' :: t0 := by
    have h15 : (chars "\"npc_dota_hero_").length = 15 := rfl
    rw [← h15, List.drop_left]
  simp only []
  rw [hdl]
  have htw : (name ++ '"' :: t0).takeWhile isWordChar = name :=
    takeWhile_all_stop hw (by decide)
  rw [htw, List.drop_left]
  cases name with
  | nil => exact absurd rfl hne
  | cons a as => rfl

theorem hasHeroNameDef_of_headMatch {sec : Str} (h : heroDefAt sec = true)
    (hne : sec ≠ []) : hasHeroNameDef sec = true := by
  unfold hasHeroNameDef
  cases sec with
  | nil => exact absurd rfl hne
  | cons c cs =>
    rw [List.length_cons]
    simp [hasHeroNameDefGo, h]

/-- Under a successful extraction (with a plausible hero name), the
per-hero body always takes the verified-splice path: no `ValueError`
is raised, the verification re-extraction agrees, and the result is
the original content with exactly the located span replaced by the
rewritten section. -/
theorem processHero_splice {content name sec : Str} (aliases : List Str)
    (hnn : name ≠ []) (hw : ∀ c ∈ name, isWordChar c = true)
    (hnl : name.length ≤ 34)
    (h : extractHeroSection content name = some sec) :
    ∃ start, findSubstr content (heroPattern name) = some start ∧
      start + sec.length ≤ content.length ∧
      processHero content name aliases =
        some (content.take start ++ sectionRewrite sec aliases
          ++ content.drop (start + sec.length)) := by
  obtain ⟨start, h1, hlen, hspl⟩ := extract_slice h
  have hpre : (heroPattern name).isPrefixOf sec = true := extract_isPrefix hnl h
  obtain ⟨t0, hsec0⟩ := isPrefixOf_exists.mp hpre
  have hsec0' : sec = chars "\"npc_dota_hero_" ++ (name ++ '"' :: t0) := by
    rw [hsec0]
    simp [heroPattern, List.append_assoc]
  have hvp := sectionValid_parts (extract_valid h)
  have h50 := hvp.2.2
  have hsecne : sec ≠ [] := by
    intro he
    rw [he] at h50
    simp at h50
  have hdef : hasHeroNameDef sec = true := by
    rw [hsec0']
    exact hasHeroNameDef_of_headMatch (heroDefAt_of hnn hw) (hsec0' ▸ hsecne)
  have hbal := hvp.2.1
  refine ⟨start, h1, hlen, ?_⟩
  unfold processHero
  rw [h]
  simp only []
  rw [if_pos hdef, if_neg (fun hne2 => hne2 hbal)]
  by_cases heq : sec = sectionRewrite sec aliases
  · rw [if_pos heq, ← heq]
    exact congrArg some hspl
  · rw [if_neg heq, h1]
    simp

/-- Outside a spliced span, take and drop recover the surrounding
pieces unchanged. -/
theorem splice_frame (A B C : Str) :
    (A ++ B ++ C).take A.length = A ∧ (A ++ B ++ C).drop (A.length + B.length) = C := by
  constructor
  · rw [List.append_assoc, List.take_left]
  · rw [← List.length_append, List.drop_left]

/-! ## The insertion substitution is the identity when the section has
no adjacent closing-brace pair -/

theorem findSubstr_none_tail {c : Char} {cs pat : Str}
    (h : findSubstr (c :: cs) pat = none) : findSubstr cs pat = none := by
  unfold findSubstr at h
  by_cases hp : pat.isPrefixOf (c :: cs) = true
  · rw [if_pos hp] at h
    exact Option.noConfusion h
  · rw [if_neg hp] at h
    cases hj : findSubstr cs pat with
    | none => rfl
    | some j =>
      rw [hj] at h
      simp at h

theorem findSubstr_none_drop {s pat : Str} (h : findSubstr s pat = none) :
    ∀ k, findSubstr (s.drop k) pat = none := by
  intro k
  induction k generalizing s with
  | zero => simpa using h
  | succ n ih =>
    cases s with
    | nil => simpa using h
    | cons c cs =>
      rw [List.drop_succ_cons]
      exact ih (findSubstr_none_tail h)

theorem insertGo_no_bb (ins : Str) : ∀ (fuel : Nat) (s : Str),
    findSubstr s [rbrace, rbrace] = none → insertGo ins fuel s = s := by
  intro fuel
  induction fuel with
  | zero =>
    intro s h
    cases s <;> rfl
  | succ f ih =>
    intro s h
    cases s with
    | nil => rfl
    | cons c cs =>
      cases hk : heroTokenAt (c :: cs) with
      | none =>
        simp only [insertGo, hk]
        rw [ih cs (findSubstr_none_tail h)]
      | some k =>
        have hbb : findSubstr ((c :: cs).drop k) [rbrace, rbrace] = none :=
          findSubstr_none_drop h k
        simp only [insertGo, hk, hbb]
        rw [ih cs (findSubstr_none_tail h)]

/-! ## Idempotence of the value-level merge on well-formed tokens -/

theorem mergeLoop_cons (acc : List Str) (a : Str) (rest : List Str) :
    mergeLoop acc (a :: rest) =
      if aliasMem acc a then mergeLoop acc rest else mergeLoop (acc ++ [a]) rest := rfl

theorem valueMerge_idem {v : Str} {new : List Str}
    (hv : cleanParse v ≠ [])
    (hts : ∀ t ∈ cleanParse v, ∀ c ∈ t, isPyWs c = false ∧ ¬ c = ';')
    (hnew : ∀ a ∈ new, a ≠ [] ∧ ∀ c ∈ a, isPyWs c = false ∧ ¬ c = ';') :
    valueMerge (valueMerge v new) new = valueMerge v new := by
  obtain ⟨kept, hk, hs⟩ := mergeLoop_exists_append new (cleanParse v)
  have hcleanne : ∀ t ∈ cleanParse v, t ≠ [] := by
    intro t ht
    have hf := List.of_mem_filter ht
    intro h0
    subst h0
    simp [pyStrip] at hf
  have hmwf : ∀ t ∈ mergeLoop (cleanParse v) new,
      t ≠ [] ∧ ∀ c ∈ t, isPyWs c = false ∧ ¬ c = ';' := by
    intro t ht
    rw [hk] at ht
    rcases List.mem_append.mp ht with h1 | h2
    · exact ⟨hcleanne t h1, hts t h1⟩
    · exact hnew t (hs.subset h2)
  have hmne : mergeLoop (cleanParse v) new ≠ [] := by
    rw [hk]
    intro h0
    exact hv (List.append_eq_nil.mp h0).1
  have hjoin : valueMerge v new = joinWith ';' (mergeLoop (cleanParse v) new) := by
    unfold valueMerge
    exact joinAliases_eq (fun t ht => ⟨(hmwf t ht).1, fun c hc => ((hmwf t ht).2 c hc).1⟩)
  have hcp : cleanParse (valueMerge v new) = mergeLoop (cleanParse v) new := by
    rw [hjoin]
    exact cleanParse_joinWith hmne hmwf
  show joinAliases (mergeLoop (cleanParse (valueMerge v new)) new) = valueMerge v new
  rw [hcp, mergeLoop_all_present new _ (fun a ha => mergeLoop_mem new (cleanParse v) a ha)]
  rfl

/-! ## The claims -/

/-- Claim C1: for a block whose declaration has an existing
semicolon-separated value list, merging appends exactly the new
aliases with no case-insensitive match among the tokens currently in
the alias set, in caller order, and skips the rest; in particular
merging `[beta, Gamma]` into existing value `Alpha;Beta` yields
`Alpha;Beta;Gamma`, both at the value level and through the full
per-hero pipeline. -/
theorem claim_C1 :
    (∀ (acc : List Str) (a : Str) (rest : List Str),
      (aliasMem acc a = true → mergeLoop acc (a :: rest) = mergeLoop acc rest) ∧
      (aliasMem acc a = false → mergeLoop acc (a :: rest) = mergeLoop (acc ++ [a]) rest)) ∧
    (∀ (acc new : List Str), ∃ kept, mergeLoop acc new = acc ++ kept ∧
      List.Sublist kept new) ∧
    joinAliases (mergeLoop (cleanParse (chars "Alpha;Beta")) [chars "beta", chars "Gamma"])
      = chars "Alpha;Beta;Gamma" ∧
    processHero docY (chars "axe") [chars "beta", chars "Gamma"] = some expY := by
  refine ⟨?_, fun acc new => mergeLoop_exists_append new acc, by decide, by decide⟩
  intro acc a rest
  constructor
  · intro h
    rw [mergeLoop_cons, if_pos h]
  · intro h
    rw [mergeLoop_cons, if_neg (by rw [h]; exact Bool.false_ne_true)]

/-- Witness for C1 at a concrete input: merging `[beta, Gamma]` into
the alias set `[Beta]` skips `beta` and appends `Gamma`. -/
theorem claim_C1_witness :
    mergeLoop [chars "Beta"] [chars "beta", chars "Gamma"]
      = [chars "Beta", chars "Gamma"] := by
  have h1 := (claim_C1.1 [chars "Beta"] (chars "beta") [chars "Gamma"]).1 (by decide)
  have h2 := (claim_C1.1 [chars "Beta"] (chars "Gamma") []).2 (by decide)
  rw [h1, h2]
  rfl

/-- Counterexample to C2 as stated: the claim's single-inserted-line
bound fails.  `docD` has no declaration line, but its section contains
a second hero token and two adjacent `}}` pairs, so the insertion
substitution (which replaces every match of its pattern) inserts two
declaration lines in one merge: the line count grows by two. -/
theorem claim_C2_cex :
    findSubstr docD (chars "NameAliases") = none ∧
    processHero docD (chars "axe") [chars "Fast"] = some expD ∧
    expD.count '\n' = docD.count '\n' + 2 := ⟨by decide, by decide, by decide⟩

/-- Claim C2 (amended): a merge changes only text inside the located
section's span — the per-hero body always takes the verified-splice
path, so the result is the original content with exactly the located
slice replaced and every character before and after the span is
byte-identical.  The claim's bound of a single inserted line is
dropped: the rewrite may insert one declaration line per match of the
insertion pattern (see the counterexample). -/
theorem claim_C2 {content name sec : Str} (aliases : List Str)
    (hnn : name ≠ []) (hw : ∀ c ∈ name, isWordChar c = true)
    (hnl : name.length ≤ 34)
    (h : extractHeroSection content name = some sec) :
    ∃ start newSec,
      findSubstr content (heroPattern name) = some start ∧
      processHero content name aliases =
        some (content.take start ++ newSec ++ content.drop (start + sec.length)) ∧
      (content.take start ++ newSec ++ content.drop (start + sec.length)).take start
        = content.take start ∧
      (content.take start ++ newSec
        ++ content.drop (start + sec.length)).drop (start + newSec.length)
        = content.drop (start + sec.length) := by
  obtain ⟨start, h1, hlen, hres⟩ := processHero_splice aliases hnn hw hnl h
  have hA : (content.take start).length = start := by
    rw [List.length_take]
    omega
  refine ⟨start, sectionRewrite sec aliases, h1, hres, ?_, ?_⟩
  · have hfr := (splice_frame (content.take start) (sectionRewrite sec aliases)
      (content.drop (start + sec.length))).1
    rw [hA] at hfr
    exact hfr
  · have hfr := (splice_frame (content.take start) (sectionRewrite sec aliases)
      (content.drop (start + sec.length))).2
    rw [hA] at hfr
    exact hfr

/-- Witness for C2 at a concrete input: the merge on `docY`. -/
theorem claim_C2_witness :
    ∃ start newSec,
      findSubstr docY (heroPattern (chars "axe")) = some start ∧
      processHero docY (chars "axe") [chars "beta", chars "Gamma"] =
        some (docY.take start ++ newSec ++ docY.drop (start + docYsec.length)) ∧
      (docY.take start ++ newSec ++ docY.drop (start + docYsec.length)).take start
        = docY.take start ∧
      (docY.take start ++ newSec
        ++ docY.drop (start + docYsec.length)).drop (start + newSec.length)
        = docY.drop (start + docYsec.length) :=
  claim_C2 [chars "beta", chars "Gamma"] (by decide) (by decide) (by decide) (by decide)

/-- Counterexample to C3 as stated: in `doc3` the quoted hero token
occurs only in the middle of a comment line, never anchored at the
start of a line's significant content, yet the locator returns a
section instead of not_found. -/
theorem claim_C3_cex :
    tokenLineAnchored doc3 (heroPattern (chars "axe")) = false ∧
    extractHeroSection doc3 (chars "axe") ≠ none := ⟨by decide, by decide⟩

/-- Claim C3 (amended): the locator matches the quoted token anywhere
in the content with no line anchoring — a token occurring only
mid-line (e.g. inside a comment) is still a hit — and not_found arises
from the token search only when the token does not occur at all. -/
theorem claim_C3 :
    (∀ content name : Str, findSubstr content (heroPattern name) = none →
      extractHeroSection content name = none) ∧
    tokenLineAnchored doc3 (heroPattern (chars "axe")) = false ∧
    extractHeroSection doc3 (chars "axe") = some doc3sec := by
  refine ⟨?_, by decide, by decide⟩
  intro content name h
  unfold extractHeroSection
  rw [h]

/-- Witness for C3 at a concrete input: a document with no hero token
yields not_found. -/
theorem claim_C3_witness :
    extractHeroSection (chars "no heroes here") (chars "axe") = none :=
  claim_C3.1 (chars "no heroes here") (chars "axe") (by decide)

/-- Counterexample to C4 as stated: a comma-separated value is not
split at the comma — the merger treats `A,B` as a single token, not as
the two tokens the claim predicts. -/
theorem claim_C4_cex :
    parseExistingAliases (chars "A,B") = [chars "A,B"] ∧
    parseExistingAliases (chars "A,B") ≠ [chars "A", chars "B"] := ⟨by decide, by decide⟩

/-- Claim C4 (amended): the accepted separators are semicolon and
whitespace, not comma; tokens are trimmed and empty tokens discarded.
Splitting inverts semicolon-joining of well-formed tokens, a
space-separated value is split at spaces, a comma-separated value is a
single token, and trimming/empty-discard behave as claimed. -/
theorem claim_C4 :
    (∀ ts : List Str, ts ≠ [] →
      (∀ t ∈ ts, t ≠ [] ∧ ∀ c ∈ t, isPyWs c = false ∧ ¬ c = ';') →
      cleanParse (joinWith ';' ts) = ts) ∧
    parseExistingAliases (chars "A B") = [chars "A", chars "B"] ∧
    parseExistingAliases (chars "A,B") = [chars "A,B"] ∧
    cleanParse (chars " Alpha ; Beta ; ") = [chars "Alpha", chars "Beta"] :=
  ⟨fun ts h1 h2 => cleanParse_joinWith h1 h2, by decide, by decide, by decide⟩

/-- Witness for C4 at a concrete input. -/
theorem claim_C4_witness :
    cleanParse (joinWith ';' [chars "Alpha", chars "Beta"])
      = [chars "Alpha", chars "Beta"] :=
  claim_C4.1 [chars "Alpha", chars "Beta"] (by decide) (by decide)

/-- Counterexample to C5 as stated: `docX` has no declaration line and
its closing braces are on separate lines, so no adjacent `}}` exists;
the merge inserts nothing at all — the document comes back unchanged
with no declaration line — where the claim predicts an inserted line
with value `Fast;Quick`. -/
theorem claim_C5_cex :
    processHero docX (chars "axe") [chars "Fast", chars "fast", chars "Quick"]
      = some docX ∧
    findSubstr docX (chars "NameAliases") = none := ⟨by decide, by decide⟩

/-- Claim C5 (amended): the new aliases are deduplicated against
themselves case-insensitively with first occurrence winning, and the
new declaration line (fixed one-tab indent) is inserted immediately
before the first adjacent `}}` pair of the section when one exists —
as in `docX2` — while a section with no adjacent `}}` is left entirely
unchanged. -/
theorem claim_C5 :
    (∀ aliases : List Str, ∃ kept, mergeLoop [] aliases = kept ∧
      List.Sublist kept aliases ∧
      List.Pairwise (fun a b => normalizeAlias a ≠ normalizeAlias b) kept ∧
      ∀ a ∈ aliases, aliasMem kept a = true) ∧
    (∀ (content name : Str) (aliases : List Str) (sec : Str),
      extractHeroSection content name = some sec → name ≠ [] →
      (∀ c ∈ name, isWordChar c = true) → name.length ≤ 34 →
      findNameAliases sec = none → findSubstr sec [rbrace, rbrace] = none →
      processHero content name aliases = some content) ∧
    processHero docX2 (chars "axe") [chars "Fast", chars "fast", chars "Quick"]
      = some expX2 := by
  refine ⟨?_, ?_, by decide⟩
  · intro aliases
    obtain ⟨kept, hk, hs⟩ := mergeLoop_exists_append aliases []
    rw [List.nil_append] at hk
    refine ⟨kept, hk, hs, ?_, fun a ha => hk ▸ mergeLoop_mem aliases [] a ha⟩
    have := mergeLoop_pairwise aliases [] List.Pairwise.nil
    rw [hk] at this
    exact this
  · intro content name aliases sec h hnn hw hnl hna hbb
    obtain ⟨start, h1, hlen, hres⟩ := processHero_splice aliases hnn hw hnl h
    obtain ⟨start2, h12, hlen2, hspl⟩ := extract_slice h
    obtain rfl : start2 = start := Option.some.inj (h12.symm.trans h1)
    have hsr : sectionRewrite sec aliases = sec := by
      simp only [sectionRewrite, hna]
      exact insertGo_no_bb _ _ _ hbb
    rw [hres, hsr]
    exact congrArg some hspl.symm

/-- Witness for C5 at a concrete input: merging into `docX` leaves it
unchanged. -/
theorem claim_C5_witness :
    processHero docX (chars "axe") [chars "Fast"] = some docX :=
  claim_C5.2.1 docX (chars "axe") [chars "Fast"] docXsec
    (by decide) (by decide) (by decide) (by decide) (by decide) (by decide)

/-- Counterexample to C6 as stated: with two declaration lines in
`doc6`, the rewrite does not leave the others unchanged — both lines
are replaced with the value merged from the first, and the second
line's original value `Two` disappears from the document. -/
theorem claim_C6_cex :
    processHero doc6 (chars "axe") [chars "Three"] = some exp6 ∧
    findSubstr doc6 (chars "\"Two\"") ≠ none ∧
    findSubstr exp6 (chars "\"Two\"") = none := ⟨by decide, by decide, by decide⟩

/-- Claim C6 (amended): with multiple declaration lines, the first
occurrence's value is the one merged into, the condition is never
fatal and no warning exists, and the substitution rewrites every
declaration occurrence in the section with that merged value. -/
theorem claim_C6 :
    (∀ (content name : Str) (aliases : List Str) (sec v : Str),
      extractHeroSection content name = some sec → name ≠ [] →
      (∀ c ∈ name, isWordChar c = true) → name.length ≤ 34 →
      findNameAliases sec = some v →
      ∃ start, findSubstr content (heroPattern name) = some start ∧
        processHero content name aliases =
          some (content.take start
            ++ subNA sec (joinAliases (mergeLoop (cleanParse v) aliases))
            ++ content.drop (start + sec.length))) ∧
    processHero doc6 (chars "axe") [chars "Three"] = some exp6 := by
  refine ⟨?_, by decide⟩
  intro content name aliases sec v h hnn hw hnl hna
  obtain ⟨start, h1, hlen, hres⟩ := processHero_splice aliases hnn hw hnl h
  have hsr : sectionRewrite sec aliases
      = subNA sec (joinAliases (mergeLoop (cleanParse v) aliases)) := by
    simp only [sectionRewrite, hna]
  rw [hsr] at hres
  exact ⟨start, h1, hres⟩

/-- Witness for C6 at a concrete input: the two-declaration document. -/
theorem claim_C6_witness :
    ∃ start, findSubstr doc6 (heroPattern (chars "axe")) = some start ∧
      processHero doc6 (chars "axe") [chars "Three"] =
        some (doc6.take start
          ++ subNA doc6sec (joinAliases (mergeLoop (cleanParse (chars "One"))
            [chars "Three"]))
          ++ doc6.drop (start + doc6sec.length)) :=
  claim_C6.1 doc6 (chars "axe") [chars "Three"] doc6sec (chars "One")
    (by decide) (by decide) (by decide) (by decide) (by decide)

/-- Counterexample to C7 as stated: in `doc7` the existing value
`Alpha Beta` already contains `alpha` case-insensitively, yet the
document is not unchanged — the declaration line is rewritten to the
semicolon-normalized `Alpha;Beta`. -/
theorem claim_C7_cex :
    (∀ a ∈ [chars "alpha"], aliasMem (cleanParse (chars "Alpha Beta")) a = true) ∧
    processHero doc7 (chars "axe") [chars "alpha"] ≠ some doc7 ∧
    processHero doc7 (chars "axe") [chars "alpha"] = some exp7 :=
  ⟨by decide, by decide, by decide⟩

/-- Claim C7 (amended): when every new alias is already present
case-insensitively, the resulting alias set equals the original one
and no line is inserted; the document is byte-identical only when the
declaration is already in canonical form (semicolon separators, single
space after the key), as in `docY`. -/
theorem claim_C7 :
    (∀ acc new : List Str, (∀ a ∈ new, aliasMem acc a = true) →
      mergeLoop acc new = acc) ∧
    (∀ a ∈ [chars "beta"], aliasMem (cleanParse (chars "Alpha;Beta")) a = true) ∧
    processHero docY (chars "axe") [chars "beta"] = some docY :=
  ⟨fun acc new h => mergeLoop_all_present new acc h, by decide, by decide⟩

/-- Witness for C7 at a concrete input. -/
theorem claim_C7_witness :
    mergeLoop [chars "Alpha"] [chars "alpha"] = [chars "Alpha"] :=
  claim_C7.1 [chars "Alpha"] [chars "alpha"] (by decide)

/-- Counterexample to C8 as stated: the document-level merge is not
idempotent.  Merging the untrimmed alias `" Fast "` into `doc8` stores
the raw token inside the value on the first pass and trims it on the
second, rewriting the line again; and even an alias that is nonempty
and free of whitespace and semicolons breaks idempotence when it
contains a double quote (`Fa"st`), because the embedded quote
truncates the next pass's regex capture. -/
theorem claim_C8_cex :
    ((processHero doc8 (chars "axe") [chars " Fast "]).bind
        (fun d => processHero d (chars "axe") [chars " Fast "])
      ≠ processHero doc8 (chars "axe") [chars " Fast "]) ∧
    (chars "Fa\"st" ≠ [] ∧ ∀ c ∈ chars "Fa\"st", isPyWs c = false ∧ ¬ c = ';') ∧
    ((processHero doc8 (chars "axe") [chars "Fa\"st"]).bind
        (fun d => processHero d (chars "axe") [chars "Fa\"st"])
      ≠ processHero doc8 (chars "axe") [chars "Fa\"st"]) :=
  ⟨by decide, by decide, by decide⟩

/-- Claim C8 (amended): the merge is not idempotent in general.  The
value-level step — parse the existing declaration value, merge the new
aliases, serialize — is idempotent whenever every token involved
(parsed existing tokens and new aliases) is nonempty and free of
whitespace and semicolons, and the full per-hero pipeline is
idempotent on the canonical concrete document `docY`; at document
level even that proviso is not enough once an alias contains a double
quote (see the counterexample). -/
theorem claim_C8 :
    (∀ (v : Str) (new : List Str), cleanParse v ≠ [] →
      (∀ t ∈ cleanParse v, ∀ c ∈ t, isPyWs c = false ∧ ¬ c = ';') →
      (∀ a ∈ new, a ≠ [] ∧ ∀ c ∈ a, isPyWs c = false ∧ ¬ c = ';') →
      valueMerge (valueMerge v new) new = valueMerge v new) ∧
    (processHero docY (chars "axe") [chars "Gamma"]).bind
        (fun d => processHero d (chars "axe") [chars "Gamma"])
      = processHero docY (chars "axe") [chars "Gamma"] :=
  ⟨fun v new h1 h2 h3 => valueMerge_idem h1 h2 h3, by decide⟩

/-- Witness for C8 at a concrete input. -/
theorem claim_C8_witness :
    valueMerge (valueMerge (chars "Alpha;Beta") [chars "Gamma"]) [chars "Gamma"]
      = valueMerge (chars "Alpha;Beta") [chars "Gamma"] :=
  claim_C8.1 (chars "Alpha;Beta") [chars "Gamma"] (by decide) (by decide) (by decide)

/-- Claim C9: the brace scan is bounded by the fixed cap
`min (opening + 100000) (length)` — the loop is structurally
terminating by construction — and when the nesting counter has not
returned to zero at the stop position and the `}}` recovery fails
(no occurrence, or the occurrence at least 1000 characters away), the
locator returns not_found instead of a section. -/
theorem claim_C9 {content name : Str} {start opening cnt pos : Nat}
    (h1 : findSubstr content (heroPattern name) = some start)
    (h2 : findCharFrom content lbrace start = some opening)
    (hr : scanLoop (min (opening + 100000) content.length - (opening + 1))
      (content.drop (opening + 1)) 1 (opening + 1) = (cnt, pos)) :
    pos ≤ min (opening + 100000) content.length ∧
    (cnt ≠ 0 → findSubstrFrom content [rbrace, rbrace] pos = none →
      extractHeroSection content name = none) ∧
    (cnt ≠ 0 → ∀ rp, findSubstrFrom content [rbrace, rbrace] pos = some rp →
      1000 ≤ rp - pos → extractHeroSection content name = none) := by
  have hop := findCharFrom_some h2
  have hmin : opening + 1 ≤ min (opening + 100000) content.length :=
    le_min (by omega) hop.2
  have hb : pos ≤ (opening + 1)
      + (min (opening + 100000) content.length - (opening + 1)) := by
    have hp := scanLoop_pos_le (min (opening + 100000) content.length - (opening + 1))
      (content.drop (opening + 1)) 1 (opening + 1)
    rw [hr] at hp
    exact hp
  refine ⟨by omega, ?_, ?_⟩
  · intro hcnt hnone
    have hse : scanEnd content opening = none := by
      unfold scanEnd
      simp only [hr]
      rw [if_pos (by simpa using hcnt)]
      simp only [hnone]
    unfold extractHeroSection
    simp only [h1, h2, hse]
  · intro hcnt rp hrp hfar
    have hse : scanEnd content opening = none := by
      unfold scanEnd
      simp only [hr]
      rw [if_pos (by simpa using hcnt)]
      simp only [hrp]
      rw [if_neg (by omega)]
    unfold extractHeroSection
    simp only [h1, h2, hse]

/-- Witness for C9 at a concrete input: the truncated document `docU`
ends its scan at the end of the text with count 1 and no `}}` to
recover with, and the locator returns not_found. -/
theorem claim_C9_witness :
    extractHeroSection docU (chars "axe") = none := by
  have h := @claim_C9 docU (chars "axe") 0 20 1 57
    (by decide) (by decide) (by decide)
  exact h.2.1 (by decide) (by decide)

/-- Claim C10: every section the locator returns is well-formed by
construction: it begins with the quoted hero token, has balanced
braces, ends (after stripping) with a closing brace, and is at least
50 characters long. -/
theorem claim_C10 {content name sec : Str} (hnl : name.length ≤ 34)
    (h : extractHeroSection content name = some sec) :
    (heroPattern name).isPrefixOf sec = true ∧
    sec.count lbrace = sec.count rbrace ∧
    (pyStrip sec).getLast? = some rbrace ∧
    50 ≤ sec.length := by
  have hv := sectionValid_parts (extract_valid h)
  exact ⟨extract_isPrefix hnl h, hv.2.1, hv.1, hv.2.2⟩

/-- Witness for C10 at a concrete input: the section extracted from
`docY`. -/
theorem claim_C10_witness :
    (heroPattern (chars "axe")).isPrefixOf docYsec = true ∧
    docYsec.count lbrace = docYsec.count rbrace ∧
    (pyStrip docYsec).getLast? = some rbrace ∧
    50 ≤ docYsec.length :=
  @claim_C10 docY (chars "axe") docYsec (by decide) (by decide)

end AliasMod
